import Mathlib

/-!
Verification of the CogniRename classification + renaming pipeline.

This file embeds the decision logic of `src/cognirename` in Lean:

* `core/face_service.py` — nearest-neighbour matching (`identify_faces`),
  per-image classification (`process_image_for_rename`), detection guards
  (`detect_faces_in_image`);
* `core/rename_service.py` — filename derivation (`generate_new_filename`),
  conflict resolution (`resolve_filename_conflict`), per-file renaming
  (`rename_single_file`) and batch aggregation (`rename_batch`);
* `core/rename_service_minimal.py` — the minimal-variant filename deriver;
* `utils/path_helpers.py` — `clean_filename` (the sanitizer); its
  `get_unique_filename` is the same probing loop as
  `resolve_filename_conflict` with the numbering format fixed to `(n)`.

Modelling conventions:
* Python `str` is modelled as `List Char` (`Str`); literals are written
  `"…".toList`.
* A `pathlib.Path` is modelled as the triple `MPath` of parent directory,
  stem and suffix, which is how the renaming code manipulates paths; a
  filename string is `stem ++ suffix`.
* The filesystem is an explicit parameter `FS : MPath → Bool` giving the
  result of `Path.exists` at call time.
* The external `face_recognition.face_distance` call is an abstract distance
  function `dist : α → α → ℚ` on an abstract encoding type `α`; the current
  Unix time is an explicit parameter `ts : ℕ`.
* Python exceptions are explicit: library results are `Except Str _`, and
  an exception raised by `Path.rename` is an `Option Str` parameter.
-/

namespace CogniRename



/-- Python strings are modelled as lists of characters. -/
abbrev Str := List Char

/-- `config.py`: `FACE_RECOGNITION_CONFIG["tolerance"] = 0.6`. -/
def tolerance : ℚ := 6 / 10

/-- `config.py`: `RENAME_CONFIG["max_names_per_file"] = 3`. -/
def max_names_per_file : ℕ := 3

/-- `config.py`: `RENAME_CONFIG["name_separator"] = "_"`. -/
def name_separator : Str := "_".toList

/-- `config.py`: `RENAME_CONFIG["duplicate_format"] = "(" ++ n ++ ")"`,
applied to a counter `n` (the `.format(n=counter)` call). -/
def duplicate_format (n : ℕ) : Str := "(".toList ++ (Nat.repr n).toList ++ ")".toList

/-- `config.py`: `PERFORMANCE_CONFIG["max_image_size"]` (50 MB). -/
def max_image_size : ℕ := 50 * 1024 * 1024

/-- `config.py`: `SUPPORTED_IMAGE_FORMATS`. -/
def SUPPORTED_IMAGE_FORMATS : List Str :=
  [".jpg".toList, ".jpeg".toList, ".png".toList, ".webp".toList, ".jfif".toList,
   ".bmp".toList, ".tiff".toList, ".tif".toList]

/-- `face_service.py:82` — message of the `FileNotFoundError`. -/
def msg_file_not_found : Str := "画像ファイルが見つかりません".toList

/-- `face_service.py:86` — message of the over-size `ValueError`. -/
def msg_too_large : Str := "画像ファイルが大きすぎます".toList

/-- `face_service.py:114` — message of the re-raised `ValueError`. -/
def msg_image_error : Str := "画像処理エラー: ".toList

/-- `rename_service.py:129` — error recorded when no face was recognised. -/
def msg_no_faces : Str := "顔を認識できませんでした".toList

/-- `rename_service.py:121` — error recorded for an unsupported format. -/
def msg_unsupported : Str := "非対応フォーマット: ".toList

/-- `rename_service.py:154` — error recorded when the rename raised. -/
def msg_rename_error : Str := "リネーム処理エラー: ".toList

/-- ASCII lower-casing of one character (`str.lower` on extensions). -/
def asciiLower (c : Char) : Char :=
  if 'A' ≤ c && c ≤ 'Z' then Char.ofNat (c.toNat + 32) else c

/-- `str.lower()` on a modelled string. -/
def lowerStr (s : Str) : Str := s.map asciiLower

/-- Python `sep.join(xs)`. -/
def joinSep (sep : Str) : List Str → Str
  | [] => []
  | [x] => x
  | x :: y :: ys => x ++ sep ++ joinSep sep (y :: ys)

/-- Python substring test `pat in s`. -/
def containsSub (pat : Str) : Str → Bool
  | [] => pat.isEmpty
  | c :: rest => pat.isPrefixOf (c :: rest) || containsSub pat rest

/-- Helper of `dedupFirst`: `seen` is the set of keys already inserted. -/
def dedupFirstAux {α : Type _} [DecidableEq α] (seen : List α) : List α → List α
  | [] => []
  | x :: xs => if x ∈ seen then dedupFirstAux seen xs
               else x :: dedupFirstAux (x :: seen) xs

/-- `list(dict.fromkeys(xs))` (`face_service.py:170`): order-preserving
de-duplication keeping the first occurrence of each element. -/
def dedupFirst {α : Type _} [DecidableEq α] (l : List α) : List α := dedupFirstAux [] l

/-- `face_recognition.face_distance(known, enc)` — the vector of distances
from the query encoding to every known encoding, in gallery order. The
distance function itself is external to the repository and is a parameter. -/
def face_distance {α : Type _} (dist : α → α → ℚ) (known : List α) (enc : α) : List ℚ :=
  known.map fun k => dist k enc

/-- `np.argmin`: index of the first occurrence of the minimum. -/
def argmin : List ℚ → ℕ
  | [] => 0
  | [_] => 0
  | x :: y :: ys =>
      if x ≤ (y :: ys).getD (argmin (y :: ys)) 0 then 0 else argmin (y :: ys) + 1

/-- The in-memory gallery: `(name, encoding)` rows in the order
`FaceService._load_known_faces` appends them (the iteration order of
`db.get_all_face_encodings`, i.e. load order). -/
def known_names {α : Type _} (gal : List (Str × α)) : List Str := gal.map Prod.fst

/-- The cached encodings, in the same load order as `known_names`. -/
def known_encodings {α : Type _} (gal : List (Str × α)) : List α := gal.map Prod.snd

/-- Body of the loop of `FaceService.identify_faces` for one encoding
(`face_service.py:131-145`): nearest gallery vector by `argmin`, owner name
if its distance is within `tolerance`, else `None`. -/
def identify_encoding {α : Type _} (dist : α → α → ℚ) (gal : List (Str × α)) (enc : α) :
    Option Str :=
  let distances := face_distance dist (known_encodings gal) enc
  let i := argmin distances
  if distances.getD i 0 ≤ tolerance then some ((known_names gal).getD i []) else none

/-- `FaceService.identify_faces` (`face_service.py:116-147`): empty gallery
short-circuits to all-`None`; otherwise each encoding is matched in turn. -/
def identify_faces {α : Type _} (dist : α → α → ℚ) (gal : List (Str × α)) (encs : List α) :
    List (Option Str) :=
  if (known_encodings gal).isEmpty then List.replicate encs.length none
  else encs.map (identify_encoding dist gal)

/-- `FaceService.detect_faces_in_image` (`face_service.py:68-114`): raises on
a missing file or an over-sized file, re-raises a library failure as a
`ValueError`, and otherwise passes the library's face list through (an image
with no face locations yields `[]`). `present` is `image_path.exists()`,
`size` is `image_path.stat().st_size`, and `lib` is the outcome of the
`face_recognition` calls (faces, or the message of a raised exception). -/
def detect_faces_in_image {α : Type _} (present : Bool) (size : ℕ)
    (lib : Except Str (List α)) : Except Str (List α) :=
  if present = false then Except.error msg_file_not_found
  else if max_image_size < size then Except.error msg_too_large
  else match lib with
    | Except.error e => Except.error (msg_image_error ++ e)
    | Except.ok faces => Except.ok faces

/-- `FaceService.process_image_for_rename` (`face_service.py:149-179`):
detect, identify, drop `None`, de-duplicate keeping first occurrences,
truncate to `max_names_per_file`; every exception is caught and turned
into `[]`. -/
def process_image_for_rename {α : Type _} (dist : α → α → ℚ) (gal : List (Str × α))
    (present : Bool) (size : ℕ) (lib : Except Str (List α)) : List Str :=
  match detect_faces_in_image present size lib with
  | Except.error _ => []
  | Except.ok face_data =>
    if face_data.isEmpty then []
    else
      let identified := identify_faces dist gal face_data
      let valid := identified.filterMap id
      let unique := dedupFirst valid
      unique.take max_names_per_file

/-- A `pathlib.Path` as the renaming code uses it: parent directory, stem
and suffix; the filename is `stem ++ suffix`. -/
structure MPath where
  dir : Str
  stem : Str
  suffix : Str
deriving DecidableEq

/-- `path_helpers.clean_filename`'s invalid-character set, the characters of
the Python literal `'<>:\"/\\|?*'`. -/
def invalid_chars : Str := ['<', '>', ':', '"', '/', '\\', '|', '?', '*']

/-- Python `s.replace(old, new)` for single characters. -/
def replaceChar (old new : Char) (s : Str) : Str :=
  s.map fun c => if c = old then new else c

/-- The replacement loop of `clean_filename` (`path_helpers.py:180-181`):
each invalid character is replaced by an underscore in turn. -/
def replace_invalid (s : Str) : Str :=
  invalid_chars.foldl (fun acc ch => replaceChar ch '_' acc) s

/-- The `while "__" in cleaned` loop of `clean_filename`
(`path_helpers.py:184-185`), embedded by its fixpoint: every maximal run
of underscores collapses to a single underscore. -/
def squeezeUnderscores : Str → Str
  | [] => []
  | [c] => [c]
  | c :: d :: rest =>
      if c = '_' && d = '_' then squeezeUnderscores (d :: rest)
      else c :: squeezeUnderscores (d :: rest)

/-- The characters stripped by `cleaned.strip('. ')`. -/
def isStripChar (c : Char) : Bool := c = '.' || c = ' '

/-- Python `s.strip('. ')`: drop those characters from both ends. -/
def pyStrip (s : Str) : Str :=
  ((s.dropWhile isStripChar).reverse.dropWhile isStripChar).reverse

/-- `path_helpers.clean_filename` (`path_helpers.py:167-194`). -/
def clean_filename (s : Str) : Str :=
  let cleaned := pyStrip (squeezeUnderscores (replace_invalid s))
  if cleaned.isEmpty then "unnamed".toList else cleaned

/-- `RenameService.generate_new_filename` (`rename_service.py:41-61`):
empty name list keeps the original filename; otherwise the names are joined
with the separator and the lower-cased extension is appended. The labels are
not sanitized here. -/
def generate_new_filename (names : List Str) (original : MPath) : Str :=
  if names.isEmpty then original.stem ++ original.suffix
  else joinSep name_separator names ++ lowerStr original.suffix

/-- `RenameServiceMinimal.generate_new_filename`
(`rename_service_minimal.py:30-58`): truncate to `max_names_per_file`,
sanitize each name with `clean_filename`, drop empty results, join with the
separator and append the original suffix unchanged. -/
def generate_new_filename_minimal (names : List Str) (original : MPath) : Str :=
  if names.isEmpty then original.stem ++ original.suffix
  else
    let names_to_use := names.take max_names_per_file
    let clean_names := names_to_use.map clean_filename
    let clean_names' := clean_names.filter fun n => !n.isEmpty
    if clean_names'.isEmpty then original.stem ++ original.suffix
    else joinSep name_separator clean_names' ++ original.suffix

/-- The probe path `base_path / (stem ++ duplicate_format n ++ suffix)` of
the conflict-resolution loop. -/
def numbered (target : MPath) (fmt : ℕ → Str) (n : ℕ) : MPath :=
  { target with stem := target.stem ++ fmt n }

/-- The timestamp fallback path `base_path / (stem ++ "_" ++ ts ++ suffix)`
(`rename_service.py:92-95`); note no existence check is made on it. -/
def timestampFallback (target : MPath) (ts : ℕ) : MPath :=
  { target with stem := target.stem ++ "_".toList ++ (Nat.repr ts).toList }

/-- The `while True` loop of `RenameService.resolve_filename_conflict`
(`rename_service.py:79-95`), with `counter` the current probe number: probe
`stem ++ fmt counter ++ suffix`; return it if free; otherwise increment,
and fall back to the timestamp name once the counter passes 9999.
`path_helpers.get_unique_filename` is the same loop with `fmt` fixed. -/
def resolveLoop (FS : MPath → Bool) (target : MPath) (fmt : ℕ → Str) (ts : ℕ)
    (counter : ℕ) : MPath :=
  if FS (numbered target fmt counter) = false then numbered target fmt counter
  else if 9999 < counter + 1 then timestampFallback target ts
  else resolveLoop FS target fmt ts (counter + 1)
termination_by 10000 - counter
decreasing_by simp_wf; omega

/-- `RenameService.resolve_filename_conflict` (`rename_service.py:63-95`):
return the target unchanged if it does not exist, else run the probing
loop from counter 1. -/
def resolve_filename_conflict (FS : MPath → Bool) (fmt : ℕ → Str) (ts : ℕ)
    (target : MPath) : MPath :=
  if FS target = false then target else resolveLoop FS target fmt ts 1

/-- The per-file result dictionary of `RenameService.rename_single_file`
(the timing field is omitted). -/
structure RenameResult where
  success : Bool
  new_path : Option MPath
  identified_names : List Str
  error : Option Str
deriving DecidableEq

/-- The target path `image_path.parent / new_filename` built by
`rename_single_file` (`rename_service.py:132-134`), at the
(dir, stem, suffix) level: the joined names form the stem and the
lower-cased original suffix the extension. -/
def rename_target_path (image_path : MPath) (names : List Str) : MPath :=
  { dir := image_path.dir, stem := joinSep name_separator names,
    suffix := lowerStr image_path.suffix }

/-- The conflict-free target of `rename_single_file`
(`rename_service.py:136-138`): conflict resolution runs only when the name
actually changes. -/
def rename_resolved_path (FS : MPath → Bool) (fmt : ℕ → Str) (ts : ℕ)
    (image_path : MPath) (names : List Str) : MPath :=
  if rename_target_path image_path names ≠ image_path then
    resolve_filename_conflict FS fmt ts (rename_target_path image_path names)
  else rename_target_path image_path names

/-- `RenameService.rename_single_file` (`rename_service.py:97-161`), given
the outcome `names` of `process_image_for_rename` and, when the rename
syscall is attempted, the exception it raises (`rename_raises`, `none` for a
successful rename). Returns the result record and the performed filesystem
mutation, if any. -/
def rename_single_file (FS : MPath → Bool) (fmt : ℕ → Str) (ts : ℕ)
    (image_path : MPath) (names : List Str) (rename_raises : Option Str)
    (dry_run : Bool) : RenameResult × Option (MPath × MPath) :=
  if lowerStr image_path.suffix ∉ SUPPORTED_IMAGE_FORMATS then
    ({ success := false, new_path := none, identified_names := [],
       error := some (msg_unsupported ++ image_path.suffix) }, none)
  else if names.isEmpty then
    ({ success := false, new_path := none, identified_names := names,
       error := some msg_no_faces }, none)
  else if dry_run then
    ({ success := true, new_path := some (rename_resolved_path FS fmt ts image_path names),
       identified_names := names, error := none }, none)
  else if rename_resolved_path FS fmt ts image_path names = image_path then
    ({ success := true, new_path := some (rename_resolved_path FS fmt ts image_path names),
       identified_names := names, error := none }, none)
  else
    match rename_raises with
    | some e =>
        ({ success := false,
           new_path := some (rename_resolved_path FS fmt ts image_path names),
           identified_names := names, error := some (msg_rename_error ++ e) }, none)
    | none =>
        ({ success := true,
           new_path := some (rename_resolved_path FS fmt ts image_path names),
           identified_names := names, error := none },
         some (image_path, rename_resolved_path FS fmt ts image_path names))

/-- The summary dictionary of `RenameService.rename_batch` (timing and the
per-file list omitted). -/
structure BatchSummary where
  total_files : ℕ
  successful : ℕ
  failed : ℕ
  no_faces : ℕ
deriving DecidableEq

/-- The tallying loop of `RenameService.rename_batch`
(`rename_service.py:230-243`): each unsuccessful result increments `failed`,
and additionally increments `no_faces` when its error message contains the
no-face message (the Python `in` substring test on `error or ""`). -/
def rename_batch_tally (results : List RenameResult) : BatchSummary :=
  results.foldl
    (fun s r =>
      if r.success then { s with successful := s.successful + 1 }
      else
        let s' := { s with failed := s.failed + 1 }
        if containsSub msg_no_faces (r.error.getD []) then
          { s' with no_faces := s'.no_faces + 1 }
        else s')
    { total_files := results.length, successful := 0, failed := 0, no_faces := 0 }

/-- One per-file job of `rename_batch`: detection context plus rename
context, composed through `process_image_for_rename` exactly as
`rename_single_file` calls it (`rename_service.py:125`). -/
def rename_file_job {α : Type _} (dist : α → α → ℚ) (gal : List (Str × α))
    (FS : MPath → Bool) (fmt : ℕ → Str) (ts : ℕ) (image_path : MPath)
    (present : Bool) (size : ℕ) (lib : Except Str (List α))
    (rename_raises : Option Str) (dry_run : Bool) :
    RenameResult × Option (MPath × MPath) :=
  rename_single_file FS fmt ts image_path
    (process_image_for_rename dist gal present size lib) rename_raises dry_run

/-- Concrete distance used in witnesses: distance 0 to an identical
encoding, distance 1 otherwise. -/
def dEq : ℕ → ℕ → ℚ := fun a b => if a = b then 0 else 1

def gal1 : List (Str × ℕ) := [("alice".toList, 0)]

/-- gallery with two entries at the same encoding (a tie). -/
def gal2tie : List (Str × ℕ) := [("alice".toList, 0), ("bob".toList, 0)]

def cexPath : MPath := ⟨"d".toList, "test".toList, ".txt".toList⟩

/-- C5 counterexample: when every path exists, no probe in the numbered
sequence is free, so the resolver cannot (and does not) return such a path. -/
def cexPath5 : MPath := ⟨"d".toList, "photo".toList, ".png".toList⟩

def fsTestFiles : MPath → Bool := fun p =>
  decide (p = cexPath) || decide (p = ⟨"d".toList, "test(1)".toList, ".txt".toList⟩)

/-- Index of the first occurrence of `a` in a list (0 past the end). -/
def firstIdx {α : Type _} [DecidableEq α] (a : α) : List α → ℕ
  | [] => 0
  | x :: xs => if x = a then 0 else firstIdx a xs + 1

def gal5 : List (Str × ℕ) :=
  [("a".toList, 0), ("b".toList, 1), ("c".toList, 2), ("d".toList, 3), ("e".toList, 4)]

/-- What one pass of the replacement loop does to a single character. -/
def sanitizeChar (c : Char) : Char := if c ∈ invalid_chars then '_' else c

/-- Adjacent characters are not both underscores (no `__` substring). -/
abbrev notBothUnderscore (a b : Char) : Prop := ¬(a = '_' ∧ b = '_')

/-- Boolean check that a string has no two adjacent underscores. -/
def chainOkB : Str → Bool
  | [] => true
  | [_] => true
  | c :: d :: rest => !(c = '_' && d = '_') && chainOkB (d :: rest)

/-- The always-empty filesystem used in scenarios. -/
def FSnone : MPath → Bool := fun _ => false

/-- A scenario image path in directory `d` with extension `.jpg`. -/
def imgP (stem : Str) : MPath := ⟨"d".toList, stem, ".jpg".toList⟩

/-- The per-file context a batch job depends on: the image path, the
detection context of `detect_faces_in_image` and the rename outcome. -/
structure FileCtx (α : Type _) where
  image_path : MPath
  present : Bool
  size : ℕ
  lib : Except Str (List α)
  rename_raises : Option Str

/-- `RenameService.rename_batch` (`rename_service.py:188-260`): run the
per-file pipeline over every file and tally the results; the list order
stands for the `as_completed` completion order. -/
def rename_batch {α : Type _} (dist : α → α → ℚ) (gal : List (Str × α))
    (FS : MPath → Bool) (fmt : ℕ → Str) (ts : ℕ) (files : List (FileCtx α))
    (dry_run : Bool) : BatchSummary :=
  rename_batch_tally (files.map fun f =>
    (rename_file_job dist gal FS fmt ts f.image_path f.present f.size f.lib
      f.rename_raises dry_run).1)

/-- Two-person gallery for the batch scenario. -/
def gal2 : List (Str × ℕ) := [("alice".toList, 0), ("bob".toList, 1)]

/-- The spec's batch scenario: five files, two matching distinct known
people, two with no detected faces, one whose detection raises. -/
def scenario_files : List (FileCtx ℕ) :=
  [⟨imgP "f1".toList, true, 0, Except.ok [0], none⟩,
   ⟨imgP "f2".toList, true, 0, Except.ok [1], none⟩,
   ⟨imgP "f3".toList, true, 0, Except.ok [], none⟩,
   ⟨imgP "f4".toList, true, 0, Except.ok [], none⟩,
   ⟨imgP "f5".toList, true, 0, Except.error "boom".toList, none⟩]

theorem argmin_lt_length (l : List ℚ) (h : l ≠ []) : argmin l < l.length := by
  induction l with
  | nil => simp at h
  | cons x xs ih =>
    cases xs with
    | nil => simp [argmin]
    | cons y ys =>
      simp only [argmin]
      split
      · simp
      · have hlt := ih (by simp)
        simpa [Nat.succ_lt_succ_iff] using hlt

theorem argmin_le (l : List ℚ) : ∀ j, j < l.length → l.getD (argmin l) 0 ≤ l.getD j 0 := by
  induction l with
  | nil => intro j hj; simp at hj
  | cons x xs ih =>
    cases xs with
    | nil =>
      intro j hj
      simp only [List.length_singleton, Nat.lt_one_iff] at hj
      subst hj
      simp [argmin]
    | cons y ys =>
      intro j hj
      simp only [argmin]
      split
      · rename_i hle
        cases j with
        | zero => simp
        | succ j' =>
          simp only [List.getD_cons_zero, List.getD_cons_succ]
          exact le_trans hle (ih j' (by simpa using hj))
      · rename_i hgt
        cases j with
        | zero =>
          simp only [List.getD_cons_succ, List.getD_cons_zero]
          exact le_of_not_le hgt
        | succ j' =>
          simp only [List.getD_cons_succ]
          exact ih j' (by simpa using hj)

theorem argmin_first (l : List ℚ) : ∀ j, j < argmin l → l.getD j 0 > l.getD (argmin l) 0 := by
  induction l with
  | nil => intro j hj; simp [argmin] at hj
  | cons x xs ih =>
    cases xs with
    | nil => intro j hj; simp [argmin] at hj
    | cons y ys =>
      intro j hj
      simp only [argmin] at hj ⊢
      split at hj
      · omega
      · rename_i hgt
        rw [if_neg hgt]
        cases j with
        | zero =>
          simp only [List.getD_cons_zero, List.getD_cons_succ]
          exact lt_of_not_le hgt
        | succ j' =>
          simp only [List.getD_cons_succ]
          exact ih j' (by omega)

theorem length_face_distance {α : Type _} (dist : α → α → ℚ) (gal : List (Str × α)) (enc : α) :
    (face_distance dist (known_encodings gal) enc).length = gal.length := by
  simp [face_distance, known_encodings]

/-- Claim C3: for every query vector and every gallery, the matcher returns
`none` on an empty gallery; otherwise it computes the distance to every
gallery vector and there is a minimum-distance index whose owner name is
returned when that minimum distance is at most the tolerance (0.6), and
`none` is returned when it exceeds the tolerance. -/
theorem matcher_min_distance_spec {α : Type _} (dist : α → α → ℚ) (gal : List (Str × α))
    (enc : α) :
    (gal = [] → identify_faces dist gal [enc] = [none]) ∧
    (gal ≠ [] →
      ∃ i, i < gal.length ∧
        (∀ j, j < gal.length →
          (face_distance dist (known_encodings gal) enc).getD i 0 ≤
            (face_distance dist (known_encodings gal) enc).getD j 0) ∧
        ((face_distance dist (known_encodings gal) enc).getD i 0 ≤ tolerance →
          identify_faces dist gal [enc] = [some ((known_names gal).getD i [])]) ∧
        (tolerance < (face_distance dist (known_encodings gal) enc).getD i 0 →
          identify_faces dist gal [enc] = [none])) := by
  constructor
  · intro h
    subst h
    simp [identify_faces, known_encodings]
  · intro h
    set ds := face_distance dist (known_encodings gal) enc with hds
    have hlen : ds.length = gal.length := length_face_distance dist gal enc
    have hne : ds ≠ [] := by
      intro hnil
      apply h
      have : ds.length = 0 := by rw [hnil]; rfl
      rw [hlen] at this
      exact List.length_eq_zero.mp this
    have hempty : (known_encodings gal).isEmpty = false := by
      simp only [known_encodings, List.isEmpty_eq_false, ne_eq, List.map_eq_nil_iff]
      exact h
    have hfaces : identify_faces dist gal [enc] = [identify_encoding dist gal enc] := by
      simp [identify_faces, hempty]
    refine ⟨argmin ds, ?_, ?_, ?_, ?_⟩
    · rw [← hlen]; exact argmin_lt_length ds hne
    · intro j hj
      exact argmin_le ds j (by rw [hlen]; exact hj)
    · intro htol
      rw [hfaces]
      simp only [identify_encoding, ← hds]
      rw [if_pos htol]
    · intro htol
      rw [hfaces]
      simp only [identify_encoding, ← hds]
      rw [if_neg (not_le.mpr htol)]

/-- Witness for C3 at a concrete gallery: empty gallery gives no match and
a singleton gallery at distance 0 returns its owner. -/
theorem matcher_min_distance_spec_witness :
    identify_faces dEq ([] : List (Str × ℕ)) [0] = [none] ∧
    identify_faces dEq gal1 [0] = [some ("alice".toList)] := by
  constructor
  · exact (matcher_min_distance_spec dEq [] 0).1 rfl
  · obtain ⟨i, hi, hmin, hle, hgt⟩ :=
      (matcher_min_distance_spec dEq gal1 0).2 (by simp [gal1])
    have hi0 : i = 0 := by
      simpa [gal1, Nat.lt_one_iff] using hi
    subst hi0
    have htol : (face_distance dEq (known_encodings gal1) 0).getD 0 0 ≤ tolerance := by
      norm_num [face_distance, known_encodings, gal1, dEq, tolerance]
    simpa [gal1, known_names] using hle htol

/-- Claim C8: for every query vector and non-empty gallery, the index the
matcher uses attains the minimum distance and is the first such index in
gallery iteration order (every earlier index has strictly larger distance),
and when the minimum is within tolerance the returned name is that first
minimising entry's owner name. -/
theorem matcher_tiebreak_first {α : Type _} (dist : α → α → ℚ) (gal : List (Str × α))
    (enc : α) (h : gal ≠ []) :
    ∃ i, i < gal.length ∧
      (∀ j, j < gal.length →
        (face_distance dist (known_encodings gal) enc).getD i 0 ≤
          (face_distance dist (known_encodings gal) enc).getD j 0) ∧
      (∀ j, j < i →
        (face_distance dist (known_encodings gal) enc).getD i 0 <
          (face_distance dist (known_encodings gal) enc).getD j 0) ∧
      ((face_distance dist (known_encodings gal) enc).getD i 0 ≤ tolerance →
        identify_faces dist gal [enc] = [some ((known_names gal).getD i [])]) := by
  set ds := face_distance dist (known_encodings gal) enc with hds
  have hlen : ds.length = gal.length := length_face_distance dist gal enc
  have hne : ds ≠ [] := by
    intro hnil
    apply h
    have : ds.length = 0 := by rw [hnil]; rfl
    rw [hlen] at this
    exact List.length_eq_zero.mp this
  have hempty : (known_encodings gal).isEmpty = false := by
    simp only [known_encodings, List.isEmpty_eq_false, ne_eq, List.map_eq_nil_iff]
    exact h
  refine ⟨argmin ds, ?_, ?_, ?_, ?_⟩
  · rw [← hlen]; exact argmin_lt_length ds hne
  · intro j hj
    exact argmin_le ds j (by rw [hlen]; exact hj)
  · intro j hj
    exact argmin_first ds j hj
  · intro htol
    have hfaces : identify_faces dist gal [enc] = [identify_encoding dist gal enc] := by
      simp [identify_faces, hempty]
    rw [hfaces]
    simp only [identify_encoding, ← hds]
    rw [if_pos htol]

/-- Witness for C8: two gallery entries tie at distance 0 and the first
one (alice) wins. -/
theorem matcher_tiebreak_first_witness :
    identify_faces dEq gal2tie [0] = [some ("alice".toList)] := by
  obtain ⟨i, hi, hmin, hfirst, hle⟩ := matcher_tiebreak_first dEq gal2tie 0 (by simp [gal2tie])
  have hds : ∀ j, (face_distance dEq (known_encodings gal2tie) 0).getD j 0 = 0 := by
    intro j
    match j with
    | 0 => norm_num [face_distance, known_encodings, gal2tie, dEq]
    | 1 => norm_num [face_distance, known_encodings, gal2tie, dEq]
    | (n + 2) => simp [face_distance, known_encodings, gal2tie]
  have hi0 : i = 0 := by
    by_contra hne0
    have hi1 : 0 < i := Nat.pos_of_ne_zero hne0
    have := hfirst 0 hi1
    rw [hds i, hds 0] at this
    exact lt_irrefl 0 this
  subst hi0
  have htol : (face_distance dEq (known_encodings gal2tie) 0).getD 0 0 ≤ tolerance := by
    rw [hds 0]; norm_num [tolerance]
  simpa [gal2tie, known_names] using hle htol

theorem resolveLoop_spec (FS : MPath → Bool) (target : MPath) (fmt : ℕ → Str) (ts : ℕ) :
    ∀ k c, 10000 - c = k → 1 ≤ c → c ≤ 9999 →
      (∃ n, c ≤ n ∧ n ≤ 9999 ∧ FS (numbered target fmt n) = false ∧
        (∀ m, c ≤ m → m < n → FS (numbered target fmt m) = true) ∧
        resolveLoop FS target fmt ts c = numbered target fmt n) ∨
      ((∀ m, c ≤ m → m ≤ 9999 → FS (numbered target fmt m) = true) ∧
        resolveLoop FS target fmt ts c = timestampFallback target ts) := by
  intro k
  induction k using Nat.strong_induction_on with
  | _ k ih =>
    intro c hk h1 h9
    rw [resolveLoop]
    by_cases hfs : FS (numbered target fmt c) = false
    · rw [if_pos hfs]
      exact Or.inl ⟨c, le_refl c, h9, hfs, fun m hm hmn => absurd hmn (by omega), rfl⟩
    · have hfs' : FS (numbered target fmt c) = true := by
        cases hb : FS (numbered target fmt c) with
        | false => exact absurd hb hfs
        | true => rfl
      rw [if_neg hfs]
      by_cases hc : 9999 < c + 1
      · rw [if_pos hc]
        refine Or.inr ⟨?_, rfl⟩
        intro m hm hm9
        have : m = c := by omega
        rw [this]
        exact hfs'
      · rw [if_neg hc]
        have hrec := ih (10000 - (c + 1)) (by omega) (c + 1) rfl (by omega) (by omega)
        rcases hrec with ⟨n, hn1, hn2, hnf, hprev, heq⟩ | ⟨hall, heq⟩
        · refine Or.inl ⟨n, by omega, hn2, hnf, ?_, heq⟩
          intro m hm hmn
          rcases eq_or_lt_of_le hm with hmc | hmc
          · rw [← hmc]; exact hfs'
          · exact hprev m (by omega) hmn
        · refine Or.inr ⟨?_, heq⟩
          intro m hm hm9
          rcases eq_or_lt_of_le hm with hmc | hmc
          · rw [← hmc]; exact hfs'
          · exact hall m (by omega) hm9

/-- Claim C4 (amended): the conflict resolver always terminates and probes
at most 9999 numbered candidates: either the candidate does not exist and is
returned unchanged, or some numbered probe with 1 ≤ n ≤ 9999 is free and a
free numbered probe is returned (all earlier probes existing), or all 9999
probes exist and the timestamp-suffixed fallback is returned. The returned
path is known not to exist in the first two cases only; the fallback is
returned without an existence check. -/
theorem resolve_conflict_bounded (FS : MPath → Bool) (fmt : ℕ → Str) (ts : ℕ)
    (target : MPath) :
    (FS target = false ∧ resolve_filename_conflict FS fmt ts target = target) ∨
    (∃ n, 1 ≤ n ∧ n ≤ 9999 ∧
      resolve_filename_conflict FS fmt ts target = numbered target fmt n ∧
      FS (numbered target fmt n) = false ∧
      (∀ m, 1 ≤ m → m < n → FS (numbered target fmt m) = true)) ∨
    (FS target = true ∧ (∀ m, 1 ≤ m → m ≤ 9999 → FS (numbered target fmt m) = true) ∧
      resolve_filename_conflict FS fmt ts target = timestampFallback target ts) := by
  by_cases hfs : FS target = false
  · exact Or.inl ⟨hfs, by rw [resolve_filename_conflict, if_pos hfs]⟩
  · have hfs' : FS target = true := by
      cases hb : FS target with
      | false => exact absurd hb hfs
      | true => rfl
    have hres : resolve_filename_conflict FS fmt ts target = resolveLoop FS target fmt ts 1 := by
      rw [resolve_filename_conflict, if_neg hfs]
    rcases resolveLoop_spec FS target fmt ts (10000 - 1) 1 rfl (le_refl 1) (by omega) with
      ⟨n, hn1, hn2, hnf, hprev, heq⟩ | ⟨hall, heq⟩
    · exact Or.inr (Or.inl ⟨n, hn1, hn2, by rw [hres, heq], hnf, hprev⟩)
    · exact Or.inr (Or.inr ⟨hfs', hall, by rw [hres, heq]⟩)

/-- Claim C4 counterexample: on a filesystem where every path exists, the
resolver returns the timestamp fallback, which exists at call time, so the
claimed "the returned path does not exist at call time" fails. -/
theorem resolve_conflict_exists_cex :
    ¬ ((fun _ : MPath => true)
        (resolve_filename_conflict (fun _ => true) duplicate_format 1700000000 cexPath) = false) ∧
    resolve_filename_conflict (fun _ => true) duplicate_format 1700000000 cexPath =
      timestampFallback cexPath 1700000000 := by
  constructor
  · intro h
    simp at h
  · rw [resolve_filename_conflict, if_neg (by simp)]
    rcases resolveLoop_spec (fun _ => true) cexPath duplicate_format 1700000000
        (10000 - 1) 1 rfl (le_refl 1) (by omega) with ⟨n, _, _, hnf, _, _⟩ | ⟨_, heq⟩
    · simp at hnf
    · exact heq

/-- Claim C5 (amended): the resolver returns the candidate unchanged when it
does not exist; when the candidate exists and some numbered probe with
1 ≤ n ≤ 9999 does not exist, it returns the first non-existing path of the
sequence stem(1)+ext, stem(2)+ext, …. (When all 9999 probes exist it falls
back to the timestamp name instead; see the counterexample.) -/
theorem resolve_conflict_first_free (FS : MPath → Bool) (fmt : ℕ → Str) (ts : ℕ)
    (target : MPath) :
    (FS target = false → resolve_filename_conflict FS fmt ts target = target) ∧
    (FS target = true →
      ∀ n, 1 ≤ n → n ≤ 9999 → FS (numbered target fmt n) = false →
        ∃ k, 1 ≤ k ∧ k ≤ 9999 ∧ FS (numbered target fmt k) = false ∧
          (∀ m, 1 ≤ m → m < k → FS (numbered target fmt m) = true) ∧
          resolve_filename_conflict FS fmt ts target = numbered target fmt k) := by
  constructor
  · intro hfs
    rw [resolve_filename_conflict, if_pos hfs]
  · intro hfs n hn1 hn9 hnf
    have hres : resolve_filename_conflict FS fmt ts target = resolveLoop FS target fmt ts 1 := by
      rw [resolve_filename_conflict, if_neg (by rw [hfs]; exact fun h => Bool.noConfusion h)]
    rcases resolveLoop_spec FS target fmt ts (10000 - 1) 1 rfl (le_refl 1) (by omega) with
      ⟨k, hk1, hk2, hkf, hprev, heq⟩ | ⟨hall, heq⟩
    · exact ⟨k, hk1, hk2, hkf, hprev, by rw [hres, heq]⟩
    · exact absurd hnf (by rw [hall n hn1 hn9]; exact fun h => Bool.noConfusion h)

theorem resolve_conflict_first_free_cex :
    ¬ ∃ n, resolve_filename_conflict (fun _ => true) duplicate_format 42 cexPath5 =
        numbered cexPath5 duplicate_format n ∧
      (fun _ : MPath => true) (numbered cexPath5 duplicate_format n) = false := by
  rintro ⟨n, -, h⟩
  simp at h

/-- Witness for C5: with test.txt and test(1).txt existing, resolving
test.txt yields test(2).txt. -/
theorem resolve_conflict_first_free_witness :
    resolve_filename_conflict fsTestFiles duplicate_format 7 cexPath =
      ⟨"d".toList, "test(2)".toList, ".txt".toList⟩ := by
  obtain ⟨k, hk1, hk9, hkf, hprev, heq⟩ :=
    (resolve_conflict_first_free fsTestFiles duplicate_format 7 cexPath).2 (by decide)
      2 (by decide) (by decide) (by decide)
  have hne1 : k ≠ 1 := by
    intro h
    rw [h] at hkf
    have : fsTestFiles (numbered cexPath duplicate_format 1) = true := by decide
    rw [this] at hkf
    exact Bool.noConfusion hkf
  have hlt3 : k < 3 := by
    by_contra hge
    have h2 := hprev 2 (by omega) (by omega)
    have : fsTestFiles (numbered cexPath duplicate_format 2) = false := by decide
    rw [this] at h2
    exact Bool.noConfusion h2
  have hk2 : k = 2 := by omega
  rw [hk2] at heq
  rw [heq]
  decide

theorem firstIdx_cons_self {α : Type _} [DecidableEq α] (a : α) (l : List α) :
    firstIdx a (a :: l) = 0 := by
  simp [firstIdx]

theorem firstIdx_cons_of_ne {α : Type _} [DecidableEq α] (x : α) (l : List α) {a : α}
    (h : a ≠ x) : firstIdx a (x :: l) = firstIdx a l + 1 := by
  simp [firstIdx, Ne.symm h]

theorem firstIdx_lt_length {α : Type _} [DecidableEq α] {a : α} :
    ∀ {l : List α}, a ∈ l → firstIdx a l < l.length := by
  intro l
  induction l with
  | nil => intro h; simp at h
  | cons x xs ih =>
    intro h
    by_cases hxa : x = a
    · simp [firstIdx, hxa]
    · rw [firstIdx_cons_of_ne x xs (fun hh => hxa hh.symm)]
      have : a ∈ xs := by
        rcases List.mem_cons.mp h with rfl | hm
        · exact absurd rfl hxa
        · exact hm
      simpa [Nat.succ_lt_succ_iff] using ih this

theorem get_firstIdx {α : Type _} [DecidableEq α] {a : α} :
    ∀ {l : List α} (h : firstIdx a l < l.length), l.get ⟨firstIdx a l, h⟩ = a := by
  intro l
  induction l with
  | nil => intro h; simp at h
  | cons x xs ih =>
    intro h
    rw [List.get_eq_getElem]
    by_cases hxa : x = a
    · simp [firstIdx, hxa]
    · have hlt : firstIdx a xs < xs.length := by
        have := h
        simp only [firstIdx, if_neg hxa, List.length_cons, Nat.succ_lt_succ_iff] at this
        exact this
      simp only [firstIdx, if_neg hxa, List.getElem_cons_succ]
      have := ih hlt
      rw [List.get_eq_getElem] at this
      exact this

theorem mem_dedupFirstAux {α : Type _} [DecidableEq α] :
    ∀ (l seen : List α) (a : α), a ∈ dedupFirstAux seen l ↔ a ∈ l ∧ a ∉ seen := by
  intro l
  induction l with
  | nil => intro seen a; simp [dedupFirstAux]
  | cons x xs ih =>
    intro seen a
    simp only [dedupFirstAux]
    split
    · rename_i hx
      rw [ih]
      constructor
      · rintro ⟨hmem, hns⟩
        exact ⟨List.mem_cons_of_mem _ hmem, hns⟩
      · rintro ⟨hmem, hns⟩
        rcases List.mem_cons.mp hmem with rfl | hmem
        · exact absurd hx hns
        · exact ⟨hmem, hns⟩
    · rename_i hx
      constructor
      · intro hmem
        rcases List.mem_cons.mp hmem with rfl | hmem
        · exact ⟨List.mem_cons_self a xs, hx⟩
        · rw [ih] at hmem
          obtain ⟨h1, h2⟩ := hmem
          simp only [List.mem_cons, not_or] at h2
          exact ⟨List.mem_cons_of_mem _ h1, h2.2⟩
      · rintro ⟨hmem, hns⟩
        by_cases hax : a = x
        · rw [hax]; exact List.mem_cons_self x _
        · apply List.mem_cons_of_mem
          rw [ih]
          rcases List.mem_cons.mp hmem with rfl | hm
          · exact absurd rfl hax
          · exact ⟨hm, by simp [List.mem_cons, hax, hns]⟩

theorem dedupFirstAux_sublist {α : Type _} [DecidableEq α] :
    ∀ (l seen : List α), (dedupFirstAux seen l).Sublist l := by
  intro l
  induction l with
  | nil => intro seen; simp [dedupFirstAux]
  | cons x xs ih =>
    intro seen
    simp only [dedupFirstAux]
    split
    · exact List.Sublist.cons x (ih seen)
    · exact List.Sublist.cons₂ x (ih (x :: seen))

theorem dedupFirstAux_nodup {α : Type _} [DecidableEq α] :
    ∀ (l seen : List α), (dedupFirstAux seen l).Nodup := by
  intro l
  induction l with
  | nil => intro seen; simp [dedupFirstAux]
  | cons x xs ih =>
    intro seen
    simp only [dedupFirstAux]
    split
    · exact ih seen
    · refine List.nodup_cons.mpr ⟨?_, ih (x :: seen)⟩
      intro hmem
      rw [mem_dedupFirstAux] at hmem
      exact hmem.2 (List.mem_cons_self x seen)

theorem dedupFirstAux_pairwise_firstIdx {α : Type _} [DecidableEq α] :
    ∀ (l seen : List α),
      List.Pairwise (fun a b => firstIdx a l < firstIdx b l) (dedupFirstAux seen l) := by
  intro l
  induction l with
  | nil => intro seen; simp [dedupFirstAux]
  | cons x xs ih =>
    intro seen
    simp only [dedupFirstAux]
    split
    · rename_i hx
      refine List.Pairwise.imp_of_mem ?_ (ih seen)
      intro a b ha hb hab
      rw [mem_dedupFirstAux] at ha hb
      have hax : a ≠ x := fun h => ha.2 (h ▸ hx)
      have hbx : b ≠ x := fun h => hb.2 (h ▸ hx)
      rw [firstIdx_cons_of_ne x xs hax, firstIdx_cons_of_ne x xs hbx]
      omega
    · rename_i hx
      refine List.pairwise_cons.mpr ⟨?_, ?_⟩
      · intro b hb
        rw [mem_dedupFirstAux] at hb
        have hbx : b ≠ x := by
          intro h
          exact hb.2 (h ▸ List.mem_cons_self x seen)
        rw [firstIdx_cons_self, firstIdx_cons_of_ne x xs hbx]
        omega
      · refine List.Pairwise.imp_of_mem ?_ (ih (x :: seen))
        intro a b ha hb hab
        rw [mem_dedupFirstAux] at ha hb
        have hax : a ≠ x := by
          intro h
          exact ha.2 (h ▸ List.mem_cons_self x seen)
        have hbx : b ≠ x := by
          intro h
          exact hb.2 (h ▸ List.mem_cons_self x seen)
        rw [firstIdx_cons_of_ne x xs hax, firstIdx_cons_of_ne x xs hbx]
        omega

theorem dedupFirstAux_eq_self {α : Type _} [DecidableEq α] :
    ∀ (l seen : List α), l.Nodup → (∀ a ∈ l, a ∉ seen) → dedupFirstAux seen l = l := by
  intro l
  induction l with
  | nil => intro seen _ _; rfl
  | cons x xs ih =>
    intro seen hnd hdis
    simp only [dedupFirstAux]
    rw [if_neg (hdis x (List.mem_cons_self x xs))]
    congr 1
    refine ih (x :: seen) (List.nodup_cons.mp hnd).2 ?_
    intro a ha
    simp only [List.mem_cons, not_or]
    exact ⟨fun h => (List.nodup_cons.mp hnd).1 (h ▸ ha), hdis a (List.mem_cons_of_mem _ ha)⟩

theorem mem_dedupFirst {α : Type _} [DecidableEq α] (l : List α) (a : α) :
    a ∈ dedupFirst l ↔ a ∈ l := by
  rw [dedupFirst, mem_dedupFirstAux]
  simp

theorem dedupFirst_sublist {α : Type _} [DecidableEq α] (l : List α) :
    (dedupFirst l).Sublist l :=
  dedupFirstAux_sublist l []

theorem dedupFirst_nodup {α : Type _} [DecidableEq α] (l : List α) :
    (dedupFirst l).Nodup :=
  dedupFirstAux_nodup l []

theorem dedupFirst_pairwise_firstIdx {α : Type _} [DecidableEq α] (l : List α) :
    List.Pairwise (fun a b => firstIdx a l < firstIdx b l) (dedupFirst l) :=
  dedupFirstAux_pairwise_firstIdx l []

theorem process_ok_eq {α : Type _} (dist : α → α → ℚ) (gal : List (Str × α))
    (encs : List α) (h : encs.isEmpty = false) :
    process_image_for_rename dist gal true 0 (Except.ok encs) =
      (dedupFirst ((identify_faces dist gal encs).filterMap id)).take max_names_per_file := by
  simp [process_image_for_rename, detect_faces_in_image, max_image_size, h]

/-- Claim C6: the batch classifier's output is an order-preserving sublist
of the matched names with no duplicates and at most 3 entries; every matched
name is either kept or the cap of 3 is full; a name dropped by the cap first
occurs after every kept name; and when the matched names are distinct the
output is exactly the first 3 in detection order. -/
theorem classifier_dedup_truncate {α : Type _} (dist : α → α → ℚ) (gal : List (Str × α))
    (encs : List α) :
    ∀ r matched, r = process_image_for_rename dist gal true 0 (Except.ok encs) →
      matched = (identify_faces dist gal encs).filterMap id →
      r.Sublist matched ∧ r.Nodup ∧ r.length ≤ 3 ∧
      (∀ x, x ∈ matched → x ∈ r ∨ r.length = 3) ∧
      (∀ x, x ∈ matched → x ∉ r → ∀ y, y ∈ r →
        firstIdx y matched < firstIdx x matched) ∧
      (matched.Nodup → r = matched.take 3) := by
  intro r matched hr hm
  by_cases hencs : encs.isEmpty
  · have hnil : encs = [] := List.isEmpty_iff.mp hencs
    subst hnil
    have hmnil : matched = [] := by
      rw [hm]
      rcases hgal : (known_encodings gal).isEmpty with hfalse | htrue <;>
        simp [identify_faces, hgal]
    have hrnil : r = [] := by
      rw [hr]
      simp [process_image_for_rename, detect_faces_in_image, max_image_size]
    subst hmnil
    rw [hrnil]
    simp
  · have hencs' : encs.isEmpty = false := by
      cases hb : encs.isEmpty with
      | false => rfl
      | true => exact absurd hb hencs
    have hr' : r = (dedupFirst matched).take max_names_per_file := by
      rw [hr, hm, process_ok_eq dist gal encs hencs']
    have hsub : r.Sublist matched := by
      rw [hr']
      exact (List.take_sublist _ _).trans (dedupFirst_sublist matched)
    refine ⟨hsub, ?_, ?_, ?_, ?_, ?_⟩
    · rw [hr']
      exact ((List.take_sublist _ _)).nodup (dedupFirst_nodup matched)
    · rw [hr', List.length_take]
      simp only [max_names_per_file]
      omega
    · intro x hx
      have hxd : x ∈ dedupFirst matched := (mem_dedupFirst matched x).mpr hx
      by_cases hlen : (dedupFirst matched).length ≤ max_names_per_file
      · left
        rw [hr', List.take_of_length_le hlen]
        exact hxd
      · right
        rw [hr', List.length_take]
        simp only [max_names_per_file] at hlen ⊢
        omega
    · intro x hx hxr y hyr
      have hxd : x ∈ dedupFirst matched := (mem_dedupFirst matched x).mpr hx
      have hqx : firstIdx x (dedupFirst matched) < (dedupFirst matched).length :=
        firstIdx_lt_length hxd
      have hqx3 : max_names_per_file ≤ firstIdx x (dedupFirst matched) := by
        by_contra hlt
        push_neg at hlt
        apply hxr
        rw [hr']
        rw [List.mem_take_iff_getElem]
        refine ⟨firstIdx x (dedupFirst matched), by omega, ?_⟩
        have := get_firstIdx hqx
        simpa [List.get_eq_getElem] using this
      rw [hr'] at hyr
      rw [List.mem_take_iff_getElem] at hyr
      obtain ⟨i, hilt, hiy⟩ := hyr
      have hpair := dedupFirst_pairwise_firstIdx matched
      rw [List.pairwise_iff_get] at hpair
      have hilen : i < (dedupFirst matched).length :=
        lt_of_lt_of_le hilt (min_le_right _ _)
      have hrel := hpair ⟨i, hilen⟩ ⟨firstIdx x (dedupFirst matched), hqx⟩
        (by simp only [Fin.mk_lt_mk]; omega)
      have hgx : (dedupFirst matched).get ⟨firstIdx x (dedupFirst matched), hqx⟩ = x :=
        get_firstIdx hqx
      have hgy : (dedupFirst matched).get ⟨i, hilen⟩ = y := by
        rw [List.get_eq_getElem]
        exact hiy
      rw [hgx, hgy] at hrel
      exact hrel
    · intro hnd
      rw [hr']
      rw [dedupFirst, dedupFirstAux_eq_self matched [] hnd (by simp)]
      rfl

/-- Witness for C6: an image matching 5 distinct known people yields
exactly the first 3 names in detection order. -/
theorem classifier_dedup_truncate_witness :
    process_image_for_rename dEq gal5 true 0 (Except.ok [0, 1, 2, 3, 4]) =
      ["a".toList, "b".toList, "c".toList] := by
  have h := (classifier_dedup_truncate dEq gal5 [0, 1, 2, 3, 4] _ _ rfl rfl).2.2.2.2.2
  have hm : (identify_faces dEq gal5 [0, 1, 2, 3, 4]).filterMap id =
      ["a".toList, "b".toList, "c".toList, "d".toList, "e".toList] := by
    norm_num [identify_faces, identify_encoding, face_distance, known_encodings, known_names,
      argmin, tolerance, dEq, gal5]
    decide
  rw [hm] at h
  exact (h (by decide)).trans (by decide)

theorem foldl_replaceChar_eq_map (chars : List Char) :
    ∀ s : Str, chars.foldl (fun acc ch => replaceChar ch '_' acc) s =
      s.map (fun c => chars.foldl (fun a ch => if a = ch then '_' else a) c) := by
  induction chars with
  | nil => intro s; simp
  | cons ch cs ih =>
    intro s
    simp only [List.foldl_cons]
    rw [ih (replaceChar ch '_' s)]
    simp only [replaceChar, List.map_map]
    rfl

theorem foldl_invalid_eq_sanitizeChar (c : Char) :
    invalid_chars.foldl (fun a ch => if a = ch then '_' else a) c = sanitizeChar c := by
  by_cases hc : c ∈ invalid_chars
  · simp only [invalid_chars, List.mem_cons, List.not_mem_nil, or_false] at hc
    rcases hc with rfl | rfl | rfl | rfl | rfl | rfl | rfl | rfl | rfl <;> decide
  · have h := hc
    simp only [invalid_chars, List.mem_cons, List.not_mem_nil, or_false, not_or] at h
    obtain ⟨h1, h2, h3, h4, h5, h6, h7, h8, h9⟩ := h
    simp [sanitizeChar, invalid_chars, List.foldl_cons, List.foldl_nil,
      h1, h2, h3, h4, h5, h6, h7, h8, h9, hc]

theorem replace_invalid_eq_map (s : Str) : replace_invalid s = s.map sanitizeChar := by
  rw [replace_invalid, foldl_replaceChar_eq_map]
  simp only [foldl_invalid_eq_sanitizeChar]

theorem noInvalid_replace (s : Str) : ∀ c ∈ replace_invalid s, c ∉ invalid_chars := by
  rw [replace_invalid_eq_map]
  intro c hc
  rw [List.mem_map] at hc
  obtain ⟨d, -, rfl⟩ := hc
  by_cases hd : d ∈ invalid_chars
  · simp only [sanitizeChar, if_pos hd]
    decide
  · simp only [sanitizeChar, if_neg hd]
    exact hd

theorem map_sanitizeChar_of_noInvalid :
    ∀ s : Str, (∀ c ∈ s, c ∉ invalid_chars) → s.map sanitizeChar = s := by
  intro s
  induction s with
  | nil => intro _; rfl
  | cons x xs ih =>
    intro h
    simp only [List.map_cons]
    have hx : sanitizeChar x = x := by
      simp [sanitizeChar, h x (List.mem_cons_self x xs)]
    rw [hx, ih (fun c hc => h c (List.mem_cons_of_mem _ hc))]

theorem squeeze_head : ∀ l : Str, (squeezeUnderscores l).head? = l.head? := by
  intro l
  induction l with
  | nil => rfl
  | cons c t ih =>
    cases t with
    | nil => rfl
    | cons d rest =>
      simp only [squeezeUnderscores]
      split
      · rename_i hcd
        rw [ih]
        simp only [Bool.and_eq_true, decide_eq_true_eq] at hcd
        simp [hcd.1, hcd.2]
      · simp

theorem squeeze_chain : ∀ l : Str, List.Chain' notBothUnderscore (squeezeUnderscores l) := by
  intro l
  induction l with
  | nil => simp [squeezeUnderscores]
  | cons c t ih =>
    cases t with
    | nil => simp [squeezeUnderscores]
    | cons d rest =>
      simp only [squeezeUnderscores]
      split
      · exact ih
      · rename_i hcd
        rw [List.chain'_cons']
        refine ⟨?_, ih⟩
        intro y hy
        rw [squeeze_head] at hy
        simp only [List.head?_cons, Option.mem_def, Option.some.injEq] at hy
        subst hy
        simp only [Bool.and_eq_true, decide_eq_true_eq, not_and] at hcd
        intro hpair
        exact hcd hpair.1 hpair.2

theorem squeeze_eq_self : ∀ l : Str, List.Chain' notBothUnderscore l →
    squeezeUnderscores l = l := by
  intro l
  induction l with
  | nil => intro _; rfl
  | cons c t ih =>
    cases t with
    | nil => intro _; rfl
    | cons d rest =>
      intro h
      rw [List.chain'_cons'] at h
      obtain ⟨hhead, htail⟩ := h
      have hcd : ¬(c = '_' ∧ d = '_') := hhead d (by simp)
      simp only [squeezeUnderscores]
      rw [if_neg (by simpa using hcd), ih htail]

theorem squeeze_subset : ∀ l : Str, ∀ y ∈ squeezeUnderscores l, y ∈ l := by
  intro l
  induction l with
  | nil => intro y hy; exact hy
  | cons c t ih =>
    cases t with
    | nil => intro y hy; exact hy
    | cons d rest =>
      intro y hy
      simp only [squeezeUnderscores] at hy
      split at hy
      · exact List.mem_cons_of_mem _ (ih y hy)
      · rcases List.mem_cons.mp hy with rfl | hy'
        · exact List.mem_cons_self _ _
        · exact List.mem_cons_of_mem _ (ih y hy')

theorem dropWhile_head_not (p : Char → Bool) :
    ∀ (l : Str) (c : Char), (l.dropWhile p).head? = some c → p c = false := by
  intro l
  induction l with
  | nil => intro c h; simp at h
  | cons x xs ih =>
    intro c h
    rw [List.dropWhile_cons] at h
    split at h
    · exact ih c h
    · rename_i hpx
      simp only [List.head?_cons, Option.some.injEq] at h
      subst h
      exact Bool.eq_false_iff.mpr hpx

theorem dropWhile_eq_self_of_head (p : Char → Bool) (l : Str)
    (h : ∀ c, l.head? = some c → p c = false) : l.dropWhile p = l := by
  cases l with
  | nil => rfl
  | cons x xs =>
    rw [List.dropWhile_cons, if_neg]
    simp [h x rfl]

theorem exists_prepend_dropWhile (p : Char → Bool) :
    ∀ l : Str, ∃ t, t ++ l.dropWhile p = l := by
  intro l
  induction l with
  | nil => exact ⟨[], rfl⟩
  | cons x xs ih =>
    rw [List.dropWhile_cons]
    split
    · obtain ⟨t, ht⟩ := ih
      exact ⟨x :: t, by rw [List.cons_append, ht]⟩
    · exact ⟨[], rfl⟩

theorem pyStrip_head_not (s : Str) (c : Char) (h : (pyStrip s).head? = some c) :
    isStripChar c = false := by
  rw [pyStrip] at h
  obtain ⟨t, ht⟩ := exists_prepend_dropWhile isStripChar (s.dropWhile isStripChar).reverse
  have hne : ((s.dropWhile isStripChar).reverse.dropWhile isStripChar).reverse ≠ [] := by
    intro hnil
    rw [hnil] at h
    simp at h
  have hu : s.dropWhile isStripChar =
      ((s.dropWhile isStripChar).reverse.dropWhile isStripChar).reverse ++ t.reverse := by
    have hrev := congrArg List.reverse ht
    rw [List.reverse_append, List.reverse_reverse] at hrev
    exact hrev.symm
  have hhead : (s.dropWhile isStripChar).head? = some c := by
    rw [hu, List.head?_append_of_ne_nil _ hne]
    exact h
  exact dropWhile_head_not isStripChar s c hhead

theorem pyStrip_getLast_not (s : Str) (c : Char) (h : (pyStrip s).getLast? = some c) :
    isStripChar c = false := by
  rw [pyStrip, List.getLast?_reverse] at h
  exact dropWhile_head_not isStripChar _ c h

theorem pyStrip_eq_self (s : Str)
    (hh : ∀ c, s.head? = some c → isStripChar c = false)
    (hl : ∀ c, s.getLast? = some c → isStripChar c = false) : pyStrip s = s := by
  rw [pyStrip]
  rw [dropWhile_eq_self_of_head isStripChar s hh]
  rw [dropWhile_eq_self_of_head isStripChar s.reverse
    (fun c hc => hl c (by rwa [List.head?_reverse] at hc))]
  exact List.reverse_reverse s

theorem pyStrip_subset (s : Str) : ∀ y ∈ pyStrip s, y ∈ s := by
  intro y hy
  rw [pyStrip, List.mem_reverse] at hy
  obtain ⟨t2, ht2⟩ := exists_prepend_dropWhile isStripChar (s.dropWhile isStripChar).reverse
  have hy2 : y ∈ (s.dropWhile isStripChar).reverse := by
    rw [← ht2]
    exact List.mem_append_right _ hy
  rw [List.mem_reverse] at hy2
  obtain ⟨t1, ht1⟩ := exists_prepend_dropWhile isStripChar s
  rw [← ht1]
  exact List.mem_append_right _ hy2

theorem pyStrip_chain (s : Str) (h : List.Chain' notBothUnderscore s) :
    List.Chain' notBothUnderscore (pyStrip s) := by
  have hsymm : ∀ a b : Char, notBothUnderscore a b → notBothUnderscore b a := by
    intro a b hab hba
    exact hab ⟨hba.2, hba.1⟩
  obtain ⟨t1, ht1⟩ := exists_prepend_dropWhile isStripChar s
  have h1 : List.Chain' notBothUnderscore (s.dropWhile isStripChar) := by
    rw [← ht1] at h
    exact h.right_of_append
  have h2 : List.Chain' (flip notBothUnderscore) (s.dropWhile isStripChar) :=
    h1.imp (fun a b hab => hsymm a b hab)
  have h3 : List.Chain' notBothUnderscore (s.dropWhile isStripChar).reverse := by
    rw [List.chain'_reverse]
    exact h2
  obtain ⟨t2, ht2⟩ := exists_prepend_dropWhile isStripChar (s.dropWhile isStripChar).reverse
  have h4 : List.Chain' notBothUnderscore
      ((s.dropWhile isStripChar).reverse.dropWhile isStripChar) := by
    rw [← ht2] at h3
    exact h3.right_of_append
  rw [pyStrip, List.chain'_reverse]
  exact h4.imp (fun a b hab => hsymm a b hab)

theorem chain'_of_chainOkB : ∀ l : Str, chainOkB l = true →
    List.Chain' notBothUnderscore l := by
  intro l
  induction l with
  | nil => intro _; simp
  | cons c t ih =>
    cases t with
    | nil => intro _; simp
    | cons d rest =>
      intro h
      simp only [chainOkB, Bool.and_eq_true, Bool.not_eq_true', Bool.and_eq_false_iff] at h
      rw [List.chain'_cons]
      refine ⟨?_, ih h.2⟩
      intro hpair
      rcases h.1 with h' | h'
      · rw [hpair.1] at h'
        simp at h'
      · rw [hpair.2] at h'
        simp at h'

theorem clean_filename_props (s : Str) :
    clean_filename s ≠ [] ∧
    (∀ c ∈ clean_filename s, c ∉ invalid_chars) ∧
    List.Chain' notBothUnderscore (clean_filename s) ∧
    (∀ c, (clean_filename s).head? = some c → isStripChar c = false) ∧
    (∀ c, (clean_filename s).getLast? = some c → isStripChar c = false) := by
  rw [clean_filename]
  by_cases hcl : (pyStrip (squeezeUnderscores (replace_invalid s))).isEmpty
  · rw [if_pos hcl]
    refine ⟨by decide, by decide, chain'_of_chainOkB _ (by decide), ?_, ?_⟩
    · intro c hc
      have hc' : c = 'u' := by
        have hhd : ("unnamed".toList).head? = some 'u' := by decide
        rw [hhd] at hc
        exact (Option.some.injEq _ _ ▸ hc).symm
      rw [hc']
      decide
    · intro c hc
      have hc' : c = 'd' := by
        have hlt : ("unnamed".toList).getLast? = some 'd' := by decide
        rw [hlt] at hc
        exact (Option.some.injEq _ _ ▸ hc).symm
      rw [hc']
      decide
  · rw [if_neg hcl]
    refine ⟨?_, ?_, ?_, ?_, ?_⟩
    · intro hnil
      exact hcl (by rw [hnil]; rfl)
    · intro c hc
      exact noInvalid_replace s c (squeeze_subset _ c (pyStrip_subset _ c hc))
    · exact pyStrip_chain _ (squeeze_chain _)
    · exact fun c hc => pyStrip_head_not _ c hc
    · exact fun c hc => pyStrip_getLast_not _ c hc

theorem clean_filename_fixed (t : Str) (hne : t ≠ [])
    (hni : ∀ c ∈ t, c ∉ invalid_chars)
    (hch : List.Chain' notBothUnderscore t)
    (hh : ∀ c, t.head? = some c → isStripChar c = false)
    (hl : ∀ c, t.getLast? = some c → isStripChar c = false) :
    clean_filename t = t := by
  rw [clean_filename]
  have h1 : replace_invalid t = t := by
    rw [replace_invalid_eq_map]
    exact map_sanitizeChar_of_noInvalid t hni
  rw [h1, squeeze_eq_self t hch, pyStrip_eq_self t hh hl]
  rw [if_neg (fun habs => hne (List.isEmpty_iff.mp habs))]

/-- Claim C7: the filename sanitizer is idempotent —
`clean_filename (clean_filename s) = clean_filename s` for every string. -/
theorem clean_filename_idempotent (s : Str) :
    clean_filename (clean_filename s) = clean_filename s := by
  obtain ⟨hne, hni, hch, hh, hl⟩ := clean_filename_props s
  exact clean_filename_fixed _ hne hni hch hh hl

theorem mem_joinSep (sep : Str) :
    ∀ (parts : List Str) (c : Char), c ∈ joinSep sep parts → c ∈ sep ∨ ∃ p ∈ parts, c ∈ p := by
  intro parts
  induction parts with
  | nil => intro c hc; simp [joinSep] at hc
  | cons x t ih =>
    cases t with
    | nil =>
      intro c hc
      simp only [joinSep] at hc
      exact Or.inr ⟨x, List.mem_cons_self x [], hc⟩
    | cons y ys =>
      intro c hc
      simp only [joinSep, List.append_assoc, List.mem_append] at hc
      rcases hc with hx | hsep | hrest
      · exact Or.inr ⟨x, List.mem_cons_self x _, hx⟩
      · exact Or.inl hsep
      · rcases ih c hrest with hs | ⟨p, hp, hcp⟩
        · exact Or.inl hs
        · exact Or.inr ⟨p, List.mem_cons_of_mem _ hp, hcp⟩

/-- Claim C2 counterexample: the primary deriver
`RenameService.generate_new_filename` does not sanitize its labels: on the
label `a/b` it emits `a/b.jpg`, which contains the invalid character `/` and
differs from the join of the sanitized labels. -/
theorem generate_filename_unsanitized_cex :
    generate_new_filename ["a/b".toList] ⟨"d".toList, "x".toList, ".jpg".toList⟩ =
      "a/b.jpg".toList ∧
    '/' ∈ generate_new_filename ["a/b".toList] ⟨"d".toList, "x".toList, ".jpg".toList⟩ ∧
    generate_new_filename ["a/b".toList] ⟨"d".toList, "x".toList, ".jpg".toList⟩ ≠
      joinSep name_separator (["a/b".toList].map clean_filename) ++ lowerStr (".jpg".toList) := by
  refine ⟨by decide, by decide, by decide⟩

/-- Claim C2 (amended): the minimal-variant deriver sanitizes each label
with `clean_filename` before joining, so its stem contains no invalid
character, and it appends the original suffix unchanged; the primary deriver
joins the labels unsanitized and lower-cases the extension. -/
theorem generate_filename_minimal_sanitizes (names : List Str) (original : MPath)
    (h : names ≠ []) :
    (∃ stem, generate_new_filename_minimal names original = stem ++ original.suffix ∧
      stem = joinSep name_separator ((names.take max_names_per_file).map clean_filename) ∧
      ∀ c ∈ stem, c ∉ invalid_chars) ∧
    generate_new_filename names original =
      joinSep name_separator names ++ lowerStr original.suffix := by
  have hne : names.isEmpty = false := by
    cases names with
    | nil => exact absurd rfl h
    | cons a l => rfl
  constructor
  · have hclean : ∀ n ∈ (names.take max_names_per_file).map clean_filename, n ≠ [] := by
      intro n hn
      rw [List.mem_map] at hn
      obtain ⟨m, -, rfl⟩ := hn
      exact (clean_filename_props m).1
    have hfilter : ((names.take max_names_per_file).map clean_filename).filter
        (fun n => !n.isEmpty) = (names.take max_names_per_file).map clean_filename := by
      rw [List.filter_eq_self]
      intro a ha
      have := hclean a ha
      cases a with
      | nil => exact absurd rfl this
      | cons c cs => rfl
    have hfne : ((names.take max_names_per_file).map clean_filename).isEmpty = false := by
      cases hnames : names with
      | nil => exact absurd hnames h
      | cons a l => simp [max_names_per_file]
    refine ⟨joinSep name_separator ((names.take max_names_per_file).map clean_filename),
      ?_, rfl, ?_⟩
    · rw [generate_new_filename_minimal,
        if_neg (by rw [hne]; exact fun hh => Bool.noConfusion hh)]
      simp only [hfilter]
      rw [if_neg (by rw [hfne]; exact fun hh => Bool.noConfusion hh)]
    · intro c hc
      rcases mem_joinSep name_separator _ c hc with hsep | ⟨p, hp, hcp⟩
      · simp only [name_separator] at hsep
        intro habs
        have : c = '_' := by simpa using hsep
        rw [this] at habs
        exact absurd habs (by decide)
      · rw [List.mem_map] at hp
        obtain ⟨m, -, rfl⟩ := hp
        exact (clean_filename_props m).2.1 c hcp
  · rw [generate_new_filename, if_neg (by rw [hne]; exact fun hh => Bool.noConfusion hh)]

/-- Witness for C2 (amended): the minimal deriver sanitizes `a/b` and
`c:d` and keeps the upper-case extension. -/
theorem generate_filename_minimal_sanitizes_witness :
    generate_new_filename_minimal ["a/b".toList, "c:d".toList]
      ⟨"e".toList, "x".toList, ".JPG".toList⟩ = "a_b_c_d.JPG".toList := by
  obtain ⟨⟨stem, heq, hstem, -⟩, -⟩ :=
    generate_filename_minimal_sanitizes ["a/b".toList, "c:d".toList]
      ⟨"e".toList, "x".toList, ".JPG".toList⟩ (by simp)
  rw [heq, hstem]
  decide

/-- Claim C9: for every input and every classification outcome, running
`rename_single_file` with `dry_run = true` performs no filesystem mutation,
while its result record (success, new path, identified names, error) equals
the one a non-dry run whose rename syscall succeeds would produce. -/
theorem dry_run_no_mutation (FS : MPath → Bool) (fmt : ℕ → Str) (ts : ℕ)
    (image_path : MPath) (names : List Str) (rename_raises : Option Str) :
    (rename_single_file FS fmt ts image_path names rename_raises true).2 = none ∧
    (rename_single_file FS fmt ts image_path names rename_raises true).1 =
      (rename_single_file FS fmt ts image_path names none false).1 := by
  constructor
  · by_cases h1 : lowerStr image_path.suffix ∉ SUPPORTED_IMAGE_FORMATS
    · simp [rename_single_file, h1]
    · by_cases h2 : names.isEmpty
      · simp [rename_single_file, h1, h2]
      · simp [rename_single_file, h1, h2]
  · by_cases h1 : lowerStr image_path.suffix ∉ SUPPORTED_IMAGE_FORMATS
    · simp [rename_single_file, h1]
    · by_cases h2 : names.isEmpty
      · simp [rename_single_file, h1, h2]
      · by_cases h3 : rename_resolved_path FS fmt ts image_path names = image_path
        · simp [rename_single_file, h1, h2, h3]
        · simp [rename_single_file, h1, h2, h3]

/-- Claim C10: `detect_faces_in_image` fails on a missing file, an
over-sized file and a library error, and `process_image_for_rename` catches
every such failure and returns `[]`, exactly the value produced for an image
with no detected faces — so a detection failure is indistinguishable from a
faceless image at the caller's level. -/
theorem process_image_swallows_errors {α : Type _} (dist : α → α → ℚ)
    (gal : List (Str × α)) (present : Bool) (size : ℕ) (lib : Except Str (List α)) :
    detect_faces_in_image (α := α) false size lib = Except.error msg_file_not_found ∧
    (max_image_size < size → detect_faces_in_image (α := α) true size lib =
      Except.error msg_too_large) ∧
    (∀ msg, size ≤ max_image_size →
      detect_faces_in_image true size (Except.error msg : Except Str (List α)) =
        Except.error (msg_image_error ++ msg)) ∧
    process_image_for_rename dist gal true 0 (Except.ok ([] : List α)) = [] ∧
    (∀ e, detect_faces_in_image present size lib = Except.error e →
      process_image_for_rename dist gal present size lib =
        process_image_for_rename dist gal true 0 (Except.ok ([] : List α))) := by
  refine ⟨?_, ?_, ?_, ?_, ?_⟩
  · rfl
  · intro hs
    simp [detect_faces_in_image, if_pos hs]
  · intro msg hs
    simp [detect_faces_in_image, Nat.not_lt.mpr hs]
  · simp [process_image_for_rename, detect_faces_in_image, max_image_size]
  · intro e he
    rw [process_image_for_rename, he]
    simp [process_image_for_rename, detect_faces_in_image, max_image_size]

/-- Witness for C10: a missing image file yields `[]` rather than an
error. -/
theorem process_image_swallows_errors_witness :
    process_image_for_rename dEq gal1 false 0 (Except.ok [0]) = [] := by
  have h := process_image_swallows_errors dEq gal1 false 0 (Except.ok [0])
  rw [h.2.2.2.2 msg_file_not_found h.1]
  exact h.2.2.2.1

theorem rename_batch_tally_aux :
    ∀ (results : List RenameResult) (init : BatchSummary),
      results.foldl
        (fun s r =>
          if r.success then { s with successful := s.successful + 1 }
          else
            let s' := { s with failed := s.failed + 1 }
            if containsSub msg_no_faces (r.error.getD []) then
              { s' with no_faces := s'.no_faces + 1 }
            else s') init =
      { total_files := init.total_files,
        successful := init.successful + results.countP (fun r => r.success),
        failed := init.failed + results.countP (fun r => !r.success),
        no_faces := init.no_faces + results.countP
          (fun r => !r.success && containsSub msg_no_faces (r.error.getD [])) } := by
  intro results
  induction results with
  | nil => intro init; simp
  | cons r rs ih =>
    intro init
    rw [List.foldl_cons, ih]
    by_cases hs : r.success
    · simp only [hs, if_true, ih, List.countP_cons, BatchSummary.mk.injEq]
      refine ⟨trivial, by omega, by simp [hs], by simp [hs]⟩
    · by_cases hc : containsSub msg_no_faces (r.error.getD [])
      · simp only [hs, if_false, Bool.false_eq_true, if_neg hs, hc, if_true, ih,
          List.countP_cons, BatchSummary.mk.injEq]
        refine ⟨trivial, by simp [hs], by simp [hs]; omega, by simp [hs, hc]; omega⟩
      · simp only [if_neg hs, hc, Bool.false_eq_true, if_false, ih,
          List.countP_cons, BatchSummary.mk.injEq]
        refine ⟨trivial, by simp [hs], by simp [hs]; omega, by simp [hs, hc]⟩

theorem rename_batch_tally_eq (results : List RenameResult) :
    rename_batch_tally results =
      { total_files := results.length,
        successful := results.countP (fun r => r.success),
        failed := results.countP (fun r => !r.success),
        no_faces := results.countP
          (fun r => !r.success && containsSub msg_no_faces (r.error.getD [])) } := by
  rw [rename_batch_tally, rename_batch_tally_aux]
  simp

theorem countP_succ_add_fail (l : List RenameResult) :
    l.countP (fun r => r.success) + l.countP (fun r => !r.success) = l.length := by
  induction l with
  | nil => rfl
  | cons r rs ih =>
    by_cases hs : r.success <;> simp [List.countP_cons, hs] <;> omega

theorem scenario_summary :
    rename_batch dEq gal2 FSnone duplicate_format 111 scenario_files false = ⟨5, 2, 3, 3⟩ := by
  have h1 : process_image_for_rename dEq gal2 true 0 (Except.ok [0]) = ["alice".toList] := by
    norm_num [process_image_for_rename, detect_faces_in_image, identify_faces, identify_encoding,
      face_distance, known_encodings, known_names, argmin, tolerance, dEq, gal2, max_image_size,
      dedupFirst, dedupFirstAux, max_names_per_file]
  have h2 : process_image_for_rename dEq gal2 true 0 (Except.ok [1]) = ["bob".toList] := by
    norm_num [process_image_for_rename, detect_faces_in_image, identify_faces, identify_encoding,
      face_distance, known_encodings, known_names, argmin, tolerance, dEq, gal2, max_image_size,
      dedupFirst, dedupFirstAux, max_names_per_file]
  have h3 : process_image_for_rename dEq gal2 true 0 (Except.ok ([] : List ℕ)) = [] := by
    simp [process_image_for_rename, detect_faces_in_image, max_image_size]
  have h5 : process_image_for_rename dEq gal2 true 0
      (Except.error "boom".toList : Except Str (List ℕ)) = [] := by
    simp [process_image_for_rename, detect_faces_in_image, max_image_size]
  simp only [rename_batch, scenario_files, List.map_cons, List.map_nil, rename_file_job,
    h1, h2, h3, h5]
  decide

/-- Claim C1 counterexample: on the spec's 5-file scenario (2 matches with
distinct names, 2 files without faces, 1 detection error) the code does not
produce successful=2, no_faces=2, failed=1: no-face files are counted under
`failed` as well, and the swallowed detection error becomes a no-face file,
giving failed=3 and no_faces=3. -/
theorem rename_batch_counts_cex :
    ¬((rename_batch dEq gal2 FSnone duplicate_format 111 scenario_files false).successful = 2 ∧
      (rename_batch dEq gal2 FSnone duplicate_format 111 scenario_files false).no_faces = 2 ∧
      (rename_batch dEq gal2 FSnone duplicate_format 111 scenario_files false).failed = 1) := by
  rw [scenario_summary]
  decide

/-- Claim C1 (amended): `rename_batch` counts every unsuccessful file under
`failed`, and additionally under `no_faces` when its error message contains
the no-face message, so `no_faces ≤ failed` and `successful + failed` is the
total; the 5-file scenario yields successful=2, failed=3, no_faces=3. -/
theorem rename_batch_counts (results : List RenameResult) :
    (rename_batch_tally results).total_files = results.length ∧
    (rename_batch_tally results).successful = results.countP (fun r => r.success) ∧
    (rename_batch_tally results).failed = results.countP (fun r => !r.success) ∧
    (rename_batch_tally results).no_faces =
      results.countP (fun r => !r.success && containsSub msg_no_faces (r.error.getD [])) ∧
    (rename_batch_tally results).no_faces ≤ (rename_batch_tally results).failed ∧
    (rename_batch_tally results).successful + (rename_batch_tally results).failed =
      results.length ∧
    rename_batch dEq gal2 FSnone duplicate_format 111 scenario_files false = ⟨5, 2, 3, 3⟩ := by
  rw [rename_batch_tally_eq]
  refine ⟨rfl, rfl, rfl, rfl, ?_, countP_succ_add_fail results, scenario_summary⟩
  apply List.countP_mono_left
  intro x _ hx
  exact ((Bool.and_eq_true _ _).mp hx).1

end CogniRename
